import Mathlib

/-!
# Verification of the GraphScope grin_gart executor bootstrap core

Shallow embedding of:
* `sync_global_process_partition_lists` and `compute_partition_server_mapping`
  from `src/interactive_engine/executor/assembly/grin_gart/src/bin/grin_executor.rs`
  (the partition assignment protocol's conflict-resolution step);
* the process-wide registry of
  `src/interactive_engine/executor/ir/graph_proxy/src/apis/read_graph.rs`
  (`register_graph` / `get_graph`, `replace_server_index` / `get_server_index`,
  `replace_read_version` / `get_read_version`,
  `replace_process_partition_lists` / `get_process_partition_lists`).

Rust `HashMap<K, V>` values are embedded as association lists `List (K × V)`;
`insert` replaces the binding in place when the key is present and appends a
fresh binding otherwise, so the association list carries exactly the key→value
content of the hash map (insertion order is the canonical representation
order).  The stream of `(server_index, partition_list)` pairs pulled from the
pegasus broadcast is embedded as a `List (Nat × List Nat)` in receive order.
The `assert_eq!` panic in the conflict-resolution loop aborts the process, so
the embedded function is `Except`-valued with the panic embedded as an error.
-/

namespace GrinExecutor

/-- Lookup in an association list (the key→value content of a Rust `HashMap`). -/
def alookup {α β : Type} [DecidableEq α] (k : α) : List (α × β) → Option β
  | [] => none
  | (k', v) :: rest => if k' = k then some v else alookup k rest

/-- `HashMap::insert`: replace the binding if the key is present, else append. -/
def ainsert {α β : Type} [DecidableEq α] (k : α) (v : β) : List (α × β) → List (α × β)
  | [] => [(k, v)]
  | (k', v') :: rest => if k' = k then (k, v) :: rest else (k', v') :: ainsert k v rest

/-- `partition_list_on_processes.entry(partitions).or_insert_with(Vec::new).push(server_index)`:
append `s` to the group of key `key`, creating the group if absent. -/
def appendGroup (key : List Nat) (s : Nat) : List (List Nat × List Nat) → List (List Nat × List Nat)
  | [] => [(key, [s])]
  | (k', ss) :: rest =>
    if k' = key then (k', ss ++ [s]) :: rest else (k', ss) :: appendGroup key s rest

/-- First loop of `sync_global_process_partition_lists`:
`partition_lists.insert(server_index, partitions.clone())` for every received
pair, in receive order. -/
def buildPartitionLists (pairs : List (Nat × List Nat)) : List (Nat × List Nat) :=
  pairs.foldl (fun m p => ainsert p.1 p.2 m) []

/-- First loop of `sync_global_process_partition_lists`, grouping part:
`partition_list_on_processes.entry(partitions).or_insert_with(Vec::new).push(server_index)`
for every received pair, in receive order. -/
def buildGroups (pairs : List (Nat × List Nat)) : List (List Nat × List Nat) :=
  pairs.foldl (fun m p => appendGroup p.2 p.1 m) []

/-- `partitions[index * nchunk..(index + 1) * nchunk].to_vec()`. -/
def chunk (partitions : List Nat) (nchunk index : Nat) : List Nat :=
  (partitions.drop (index * nchunk)).take nchunk

/-- The fatal bootstrap failures of the protocol.  `unevenSplit` embeds the
`assert_eq!(partitions.len() % servers.len(), 0)` panic. -/
inductive ProtocolError : Type
  | unevenSplit : ProtocolError
  | duplicateOwnership : ProtocolError
deriving DecidableEq

/-- One iteration of the dedup loop of `sync_global_process_partition_lists`:
for a group `(partitions, servers)` with more than one member, assert the even
split and insert chunk `index` for the `index`-th server of the group (in the
order the group was built, i.e. receive order). -/
def applyGroup (m : List (Nat × List Nat)) (g : List Nat × List Nat) :
    Except ProtocolError (List (Nat × List Nat)) :=
  if g.2.length > 1 then
    if g.1.length % g.2.length = 0 then
      let nchunk := g.1.length / g.2.length
      Except.ok (g.2.enum.foldl (fun m p => ainsert p.2 (chunk g.1 nchunk p.1) m) m)
    else Except.error ProtocolError.unevenSplit
  else Except.ok m

/-- The conflict-resolution core of `sync_global_process_partition_lists`
(grin_executor.rs lines 170–190): build the initial `server → list` map and the
`list → servers` groups from the received broadcast pairs, then split every
group of more than one server into contiguous equal chunks.  The
`assert_eq!` panic is the `unevenSplit` error. -/
def sync_global_process_partition_lists (pairs : List (Nat × List Nat)) :
    Except ProtocolError (List (Nat × List Nat)) :=
  (buildGroups pairs).foldlM applyGroup (buildPartitionLists pairs)

/-- `compute_partition_server_mapping` inner loop: insert
`(partition, server_index)` for every partition of one server's list. -/
def insertPartitions (sIdx : Nat) (partitions : List Nat) (m : List (Nat × Nat)) :
    List (Nat × Nat) :=
  partitions.foldl (fun m p => ainsert p sIdx m) m

/-- `compute_partition_server_mapping` (grin_executor.rs lines 193–204): a
single pass inserting `(partition, server_index)` for every partition in every
server's list.  The Rust function's result type is fallible
(`StartServerResult`) but the body unconditionally returns `Ok`. -/
def compute_partition_server_mapping (process_partition_lists : List (Nat × List Nat)) :
    Except ProtocolError (List (Nat × Nat)) :=
  Except.ok (process_partition_lists.foldl (fun m e => insertPartitions e.1 e.2 m) [])

/-- The servers that broadcast exactly the list `L`, in receive order: the
characterization of the group built for key `L`. -/
def groupOf (L : List Nat) (pairs : List (Nat × List Nat)) : List Nat :=
  (pairs.filter (fun p => p.2 = L)).map Prod.fst

/-- Insert into an ascending-sorted list, keeping it sorted. -/
def insertSorted (x : Nat) : List Nat → List Nat
  | [] => [x]
  | y :: ys => if x ≤ y then x :: y :: ys else y :: insertSorted x ys

/-- Ascending insertion sort. -/
def sortAsc (xs : List Nat) : List Nat := xs.foldr insertSorted []

/-- The conflict-resolution rule as the SPEC words it (not as the code does):
sort the group's server indices ascending, split the shared list into
contiguous equal chunks in original list order, and assign chunk `k` to the
`k`-th server of the sorted order. -/
def spec_sorted_split (partitions servers : List Nat) : List (Nat × List Nat) :=
  (sortAsc servers).enum.map
    (fun p => (p.2, chunk partitions (partitions.length / servers.length) p.1))

end GrinExecutor

namespace ReadGraphRegistry

/-- The process-wide registry cells of `read_graph.rs`:
`GRAPH_PROXY` (an `AtomicPtr`, null before the first `register_graph`),
`PROCESS_PARTITION_LISTS`, `SERVER_INDEX` and `READ_VERSION` (each an
independently locked cell with a default initial value).  `G` is the opaque
graph-handle type (`Arc<dyn ReadGraph>`). -/
structure Registry (G : Type) where
  graphProxy : Option G
  processPartitionLists : List (Nat × List Nat)
  serverIndex : Nat
  readVersion : Nat

/-- The `lazy_static!` initial state: null graph pointer, empty map, `0`, `0`. -/
def initRegistry (G : Type) : Registry G :=
  { graphProxy := none, processPartitionLists := [], serverIndex := 0, readVersion := 0 }

/-- `register_graph`: store the handle into `GRAPH_PROXY`. -/
def register_graph {G : Type} (g : G) (r : Registry G) : Registry G :=
  { r with graphProxy := some g }

/-- `get_graph`: read `GRAPH_PROXY`; a null pointer reads as `none`. -/
def get_graph {G : Type} (r : Registry G) : Option G :=
  r.graphProxy

/-- `replace_process_partition_lists`. -/
def replace_process_partition_lists {G : Type} (m : List (Nat × List Nat)) (r : Registry G) :
    Registry G :=
  { r with processPartitionLists := m }

/-- `get_process_partition_lists`. -/
def get_process_partition_lists {G : Type} (r : Registry G) : List (Nat × List Nat) :=
  r.processPartitionLists

/-- `replace_server_index`. -/
def replace_server_index {G : Type} (i : Nat) (r : Registry G) : Registry G :=
  { r with serverIndex := i }

/-- `get_server_index`. -/
def get_server_index {G : Type} (r : Registry G) : Nat :=
  r.serverIndex

/-- `replace_read_version`: an unconditional store of the new version. -/
def replace_read_version {G : Type} (v : Nat) (r : Registry G) : Registry G :=
  { r with readVersion := v }

/-- `get_read_version`. -/
def get_read_version {G : Type} (r : Registry G) : Nat :=
  r.readVersion

/-- A registry write operation, for reasoning about operation sequences. -/
inductive RegOp (G : Type) : Type
  | registerGraph (g : G)
  | replacePartitionLists (m : List (Nat × List Nat))
  | replaceServerIndex (i : Nat)
  | replaceReadVersion (v : Nat)

/-- Apply one write operation to the registry state. -/
def applyOp {G : Type} (r : Registry G) : RegOp G → Registry G
  | RegOp.registerGraph g => register_graph g r
  | RegOp.replacePartitionLists m => replace_process_partition_lists m r
  | RegOp.replaceServerIndex i => replace_server_index i r
  | RegOp.replaceReadVersion v => replace_read_version v r

/-- Run a sequence of write operations from the initial registry state. -/
def runOps {G : Type} (ops : List (RegOp G)) : Registry G :=
  ops.foldl applyOp (initRegistry G)

/-- Whether a registry operation is a `register_graph` call. -/
def isRegisterGraph {G : Type} : RegOp G → Bool
  | RegOp.registerGraph _ => true
  | _ => false

end ReadGraphRegistry

namespace GrinExecutor

/-! ## Association-list lemmas -/

theorem alookup_ainsert_self {α β : Type} [DecidableEq α] (k : α) (v : β) (m : List (α × β)) :
    alookup k (ainsert k v m) = some v := by
  induction m with
  | nil => simp [ainsert, alookup]
  | cons e rest ih =>
    obtain ⟨k', v'⟩ := e
    by_cases h : k' = k
    · simp [ainsert, alookup, h]
    · simp [ainsert, alookup, h, ih]

theorem alookup_ainsert_ne {α β : Type} [DecidableEq α] (k k' : α) (v : β) (m : List (α × β))
    (h : k' ≠ k) : alookup k (ainsert k' v m) = alookup k m := by
  induction m with
  | nil => simp [ainsert, alookup, h]
  | cons e rest ih =>
    obtain ⟨a, b⟩ := e
    by_cases he : a = k'
    · subst he
      simp [ainsert, alookup, h]
    · by_cases hak : a = k
      · simp [ainsert, alookup, he, hak, Ne.symm h]
      · simp [ainsert, alookup, he, hak, ih]

theorem alookup_eq_none_iff {α β : Type} [DecidableEq α] (k : α) (m : List (α × β)) :
    alookup k m = none ↔ k ∉ m.map Prod.fst := by
  induction m with
  | nil => simp [alookup]
  | cons e rest ih =>
    obtain ⟨a, b⟩ := e
    by_cases h : a = k
    · simp [alookup, h]
    · simp [alookup, h, ih, Ne.symm h]

theorem alookup_mem {α β : Type} [DecidableEq α] {k : α} {v : β} {m : List (α × β)}
    (h : alookup k m = some v) : (k, v) ∈ m := by
  induction m with
  | nil => simp [alookup] at h
  | cons e rest ih =>
    obtain ⟨a, b⟩ := e
    by_cases he : a = k
    · simp only [alookup, if_pos he] at h
      cases h
      subst he
      exact List.mem_cons_self _ _
    · simp only [alookup, if_neg he] at h
      exact List.mem_cons_of_mem _ (ih h)

theorem mem_alookup {α β : Type} [DecidableEq α] {k : α} {v : β} {m : List (α × β)}
    (hnd : (m.map Prod.fst).Nodup) (h : (k, v) ∈ m) : alookup k m = some v := by
  induction m with
  | nil => simp at h
  | cons e rest ih =>
    obtain ⟨a, b⟩ := e
    simp only [List.map_cons, List.nodup_cons] at hnd
    rcases List.mem_cons.mp h with h' | h'
    · cases h'
      simp [alookup]
    · have hak : a ≠ k := by
        intro hak
        subst hak
        exact hnd.1 (by simpa using List.mem_map_of_mem Prod.fst h')
      simp only [alookup, if_neg hak]
      exact ih hnd.2 h'

theorem ainsert_of_notMem {α β : Type} [DecidableEq α] (k : α) (v : β) (m : List (α × β))
    (h : k ∉ m.map Prod.fst) : ainsert k v m = m ++ [(k, v)] := by
  induction m with
  | nil => simp [ainsert]
  | cons e rest ih =>
    obtain ⟨a, b⟩ := e
    simp only [List.map_cons, List.mem_cons] at h
    push_neg at h
    simp only [ainsert, if_neg (Ne.symm h.1)]
    rw [ih h.2]
    simp

/-! ## `buildPartitionLists`: with distinct server indices the initial map is
the received sequence itself. -/

theorem foldl_ainsert_fresh {α β : Type} [DecidableEq α] (pairs : List (α × β)) :
    ∀ acc : List (α × β), (pairs.map Prod.fst).Nodup →
      (∀ k ∈ pairs.map Prod.fst, k ∉ acc.map Prod.fst) →
      pairs.foldl (fun m p => ainsert p.1 p.2 m) acc = acc ++ pairs := by
  induction pairs with
  | nil => simp
  | cons e rest ih =>
    intro acc hnd hfresh
    simp only [List.map_cons, List.nodup_cons] at hnd
    simp only [List.foldl_cons]
    rw [ainsert_of_notMem e.1 e.2 acc (hfresh e.1 (by simp))]
    rw [ih (acc ++ [(e.1, e.2)]) hnd.2]
    · simp
    · intro k hk
      simp only [List.map_append, List.mem_append]
      push_neg
      refine ⟨hfresh k (by simp [hk]), ?_⟩
      simp only [List.map_cons, List.map_nil, List.mem_singleton]
      intro hke
      exact hnd.1 (hke ▸ hk)

theorem buildPartitionLists_eq_self (pairs : List (Nat × List Nat))
    (hnd : (pairs.map Prod.fst).Nodup) : buildPartitionLists pairs = pairs := by
  have := foldl_ainsert_fresh pairs [] hnd (by simp)
  simpa [buildPartitionLists] using this

/-! ## `buildGroups`: the group stored for key `L` is exactly the servers that
broadcast `L`, in receive order (`groupOf`). -/

theorem alookup_appendGroup_self (key : List Nat) (s : Nat)
    (m : List (List Nat × List Nat)) :
    alookup key (appendGroup key s m) = some ((alookup key m).getD [] ++ [s]) := by
  induction m with
  | nil => simp [appendGroup, alookup]
  | cons e rest ih =>
    obtain ⟨k', ss⟩ := e
    by_cases h : k' = key
    · simp [appendGroup, alookup, h]
    · simp [appendGroup, alookup, h, ih]

theorem alookup_appendGroup_ne (k key : List Nat) (s : Nat)
    (m : List (List Nat × List Nat)) (h : key ≠ k) :
    alookup k (appendGroup key s m) = alookup k m := by
  induction m with
  | nil => simp [appendGroup, alookup, h]
  | cons e rest ih =>
    obtain ⟨k', ss⟩ := e
    by_cases h' : k' = key
    · subst h'
      simp [appendGroup, alookup, h]
    · by_cases h'' : k' = k
      · simp [appendGroup, alookup, h', h'', Ne.symm h]
      · simp [appendGroup, alookup, h', h'', ih]

theorem appendGroup_keys (key : List Nat) (s : Nat) (m : List (List Nat × List Nat)) :
    (appendGroup key s m).map Prod.fst =
      if key ∈ m.map Prod.fst then m.map Prod.fst else m.map Prod.fst ++ [key] := by
  induction m with
  | nil => simp [appendGroup]
  | cons e rest ih =>
    obtain ⟨k', ss⟩ := e
    by_cases h : k' = key
    · simp [appendGroup, h]
    · simp only [appendGroup, if_neg h, List.map_cons, ih]
      by_cases h2 : key ∈ rest.map Prod.fst
      · simp [h2, Ne.symm h]
      · simp [h2, Ne.symm h]

theorem appendGroup_keys_nodup (key : List Nat) (s : Nat)
    (m : List (List Nat × List Nat)) (hnd : (m.map Prod.fst).Nodup) :
    ((appendGroup key s m).map Prod.fst).Nodup := by
  rw [appendGroup_keys]
  by_cases h : key ∈ m.map Prod.fst
  · simpa [h]
  · simp only [if_neg h]
    refine List.Nodup.append hnd (List.nodup_singleton key) ?_
    intro a ha hk
    simp only [List.mem_singleton] at hk
    exact h (hk ▸ ha)

theorem groupOf_nil (L : List Nat) : groupOf L [] = [] := rfl

theorem groupOf_cons (L : List Nat) (p : Nat × List Nat) (pairs : List (Nat × List Nat)) :
    groupOf L (p :: pairs) =
      if p.2 = L then p.1 :: groupOf L pairs else groupOf L pairs := by
  simp only [groupOf, List.filter_cons]
  by_cases h : p.2 = L
  · simp [h]
  · simp [h]

theorem mem_groupOf (s : Nat) (L : List Nat) (pairs : List (Nat × List Nat)) :
    s ∈ groupOf L pairs ↔ (s, L) ∈ pairs := by
  simp only [groupOf, List.mem_map, List.mem_filter]
  constructor
  · rintro ⟨⟨a, M⟩, ⟨hp, hpl⟩, rfl⟩
    simp only [decide_eq_true_eq] at hpl
    subst hpl
    exact hp
  · intro h
    exact ⟨(s, L), ⟨h, by simp⟩, rfl⟩

theorem groupOf_sublist (L : List Nat) (pairs : List (Nat × List Nat)) :
    (groupOf L pairs).Sublist (pairs.map Prod.fst) :=
  (List.filter_sublist pairs).map Prod.fst

theorem groupOf_nodup (L : List Nat) (pairs : List (Nat × List Nat))
    (hnd : (pairs.map Prod.fst).Nodup) : (groupOf L pairs).Nodup :=
  (groupOf_sublist L pairs).nodup hnd

theorem alookup_foldl_appendGroup_some (pairs : List (Nat × List Nat)) :
    ∀ (acc : List (List Nat × List Nat)) (L : List Nat) (ss : List Nat),
      alookup L acc = some ss →
      alookup L (pairs.foldl (fun m p => appendGroup p.2 p.1 m) acc) =
        some (ss ++ groupOf L pairs) := by
  induction pairs with
  | nil => intro acc L ss h; simpa [groupOf_nil] using h
  | cons p rest ih =>
    intro acc L ss h
    simp only [List.foldl_cons]
    rw [groupOf_cons]
    by_cases hp : p.2 = L
    · subst hp
      have := alookup_appendGroup_self p.2 p.1 acc
      rw [h] at this
      simp only [Option.getD_some] at this
      rw [ih _ _ _ this]
      simp
    · rw [ih _ _ _ (by rw [alookup_appendGroup_ne _ _ _ _ hp, h]), if_neg hp]

theorem alookup_foldl_appendGroup_none (pairs : List (Nat × List Nat)) :
    ∀ (acc : List (List Nat × List Nat)) (L : List Nat),
      alookup L acc = none →
      alookup L (pairs.foldl (fun m p => appendGroup p.2 p.1 m) acc) =
        if groupOf L pairs = [] then none else some (groupOf L pairs) := by
  induction pairs with
  | nil => intro acc L h; simpa [groupOf_nil] using h
  | cons p rest ih =>
    intro acc L h
    simp only [List.foldl_cons]
    rw [groupOf_cons]
    by_cases hp : p.2 = L
    · subst hp
      have := alookup_appendGroup_self p.2 p.1 acc
      rw [h] at this
      simp only [Option.getD_none, List.nil_append] at this
      rw [alookup_foldl_appendGroup_some rest _ _ _ this]
      simp
    · rw [ih _ _ (by rw [alookup_appendGroup_ne _ _ _ _ hp, h]), if_neg hp]

theorem alookup_buildGroups (pairs : List (Nat × List Nat)) (L : List Nat) :
    alookup L (buildGroups pairs) =
      if groupOf L pairs = [] then none else some (groupOf L pairs) := by
  exact alookup_foldl_appendGroup_none pairs [] L (by simp [alookup])

theorem buildGroups_keys_nodup (pairs : List (Nat × List Nat)) :
    ((buildGroups pairs).map Prod.fst).Nodup := by
  have main : ∀ (ps : List (Nat × List Nat)) (acc : List (List Nat × List Nat)),
      (acc.map Prod.fst).Nodup →
      ((ps.foldl (fun m p => appendGroup p.2 p.1 m) acc).map Prod.fst).Nodup := by
    intro ps
    induction ps with
    | nil => intro acc h; simpa using h
    | cons p rest ih =>
      intro acc h
      simp only [List.foldl_cons]
      exact ih _ (appendGroup_keys_nodup p.2 p.1 acc h)
  exact main pairs [] (by simp)

theorem mem_buildGroups_iff (pairs : List (Nat × List Nat)) (L : List Nat)
    (ss : List Nat) :
    (L, ss) ∈ buildGroups pairs ↔ alookup L (buildGroups pairs) = some ss :=
  ⟨mem_alookup (buildGroups_keys_nodup pairs), alookup_mem⟩

theorem mem_buildGroups_groupOf {pairs : List (Nat × List Nat)} {L : List Nat}
    {ss : List Nat} (h : (L, ss) ∈ buildGroups pairs) : ss = groupOf L pairs := by
  have h' := (mem_buildGroups_iff pairs L ss).mp h
  rw [alookup_buildGroups] at h'
  by_cases hg : groupOf L pairs = []
  · rw [if_pos hg] at h'
    cases h'
  · rw [if_neg hg] at h'
    exact (Option.some.injEq _ _ ▸ h').symm

/-! ## The per-group chunk-assignment fold
(`for (index, server) in servers.iter().enumerate() { partition_lists.insert(...) }`). -/

theorem alookup_chunkFold_notMem (L : List Nat) (n : Nat) (ss : List Nat) :
    ∀ (i : Nat) (m : List (Nat × List Nat)) (s : Nat), s ∉ ss →
      alookup s ((List.enumFrom i ss).foldl (fun m p => ainsert p.2 (chunk L n p.1) m) m) =
        alookup s m := by
  induction ss with
  | nil => intro i m s _; simp
  | cons x rest ih =>
    intro i m s hs
    simp only [List.mem_cons] at hs
    push_neg at hs
    simp only [List.enumFrom, List.foldl_cons]
    rw [ih (i+1) _ s hs.2, alookup_ainsert_ne _ _ _ _ hs.1.symm]

theorem alookup_chunkFold_get (L : List Nat) (n : Nat) (ss : List Nat) :
    ∀ (i : Nat) (m : List (Nat × List Nat)) (k : Nat) (hk : k < ss.length) (_ : ss.Nodup),
      alookup (ss.get ⟨k, hk⟩)
          ((List.enumFrom i ss).foldl (fun m p => ainsert p.2 (chunk L n p.1) m) m) =
        some (chunk L n (i + k)) := by
  induction ss with
  | nil => intro i m k hk _; simp at hk
  | cons x rest ih =>
    intro i m k hk hnd
    simp only [List.nodup_cons] at hnd
    simp only [List.enumFrom, List.foldl_cons]
    match k with
    | 0 =>
      simp only [List.get]
      rw [alookup_chunkFold_notMem L n rest (i+1) _ x hnd.1,
        alookup_ainsert_self, Nat.add_zero]
    | k + 1 =>
      simp only [List.get]
      rw [show i + (k + 1) = (i + 1) + k from by omega]
      exact ih (i+1) _ k (by simpa using Nat.lt_of_succ_lt_succ hk) hnd.2

/-! ## `applyGroup` case analysis -/

theorem applyGroup_ok_of_small {m : List (Nat × List Nat)} {g : List Nat × List Nat}
    (h : ¬ g.2.length > 1) : applyGroup m g = Except.ok m := by
  simp [applyGroup, h]

theorem applyGroup_error_of_uneven {m : List (Nat × List Nat)} {g : List Nat × List Nat}
    (h1 : g.2.length > 1) (h2 : g.1.length % g.2.length ≠ 0) :
    applyGroup m g = Except.error ProtocolError.unevenSplit := by
  simp [applyGroup, h1, h2]

theorem applyGroup_error_eq {m : List (Nat × List Nat)} {g : List Nat × List Nat}
    {e : ProtocolError} (h : applyGroup m g = Except.error e) :
    e = ProtocolError.unevenSplit ∧ g.2.length > 1 ∧ g.1.length % g.2.length ≠ 0 := by
  by_cases h1 : g.2.length > 1
  · by_cases h2 : g.1.length % g.2.length = 0
    · simp [applyGroup, h1, h2] at h
    · rw [applyGroup_error_of_uneven h1 h2] at h
      cases h
      exact ⟨rfl, h1, h2⟩
  · rw [applyGroup_ok_of_small h1] at h
    cases h

theorem applyGroup_ok_cases {m : List (Nat × List Nat)} {g : List Nat × List Nat}
    {m' : List (Nat × List Nat)} (h : applyGroup m g = Except.ok m') :
    (¬ g.2.length > 1 ∧ m' = m) ∨
      (g.2.length > 1 ∧ g.1.length % g.2.length = 0 ∧
        m' = g.2.enum.foldl
          (fun m p => ainsert p.2 (chunk g.1 (g.1.length / g.2.length) p.1) m) m) := by
  by_cases h1 : g.2.length > 1
  · by_cases h2 : g.1.length % g.2.length = 0
    · right
      refine ⟨h1, h2, ?_⟩
      simp only [applyGroup, if_pos h1, if_pos h2, Except.ok.injEq] at h
      exact h.symm
    · rw [applyGroup_error_of_uneven h1 h2] at h
      cases h
  · left
    rw [applyGroup_ok_of_small h1] at h
    cases h
    exact ⟨h1, rfl⟩

theorem applyGroup_lookup_preserved {m : List (Nat × List Nat)} {g : List Nat × List Nat}
    {m' : List (Nat × List Nat)} {s : Nat} (h : applyGroup m g = Except.ok m')
    (hs : s ∈ g.2 → ¬ g.2.length > 1) : alookup s m' = alookup s m := by
  rcases applyGroup_ok_cases h with ⟨_, rfl⟩ | ⟨h1, _, rfl⟩
  · rfl
  · have hsm : s ∉ g.2 := fun hmem => hs hmem h1
    exact alookup_chunkFold_notMem g.1 (g.1.length / g.2.length) g.2 0 m s hsm

theorem applyGroup_lookup_chunk {m : List (Nat × List Nat)} {g : List Nat × List Nat}
    {m' : List (Nat × List Nat)} (h : applyGroup m g = Except.ok m')
    (h1 : g.2.length > 1) (hnd : g.2.Nodup) (k : Nat) (hk : k < g.2.length) :
    alookup (g.2.get ⟨k, hk⟩) m' = some (chunk g.1 (g.1.length / g.2.length) k) := by
  rcases applyGroup_ok_cases h with ⟨h', _⟩ | ⟨_, _, rfl⟩
  · exact absurd h1 h'
  · have := alookup_chunkFold_get g.1 (g.1.length / g.2.length) g.2 0 m k hk hnd
    simpa using this

/-! ## The dedup loop (`for (partitions, servers) in partition_list_on_processes.iter()`) -/

theorem dedup_error_of_mem {gs : List (List Nat × List Nat)} {g : List Nat × List Nat}
    (hg : g ∈ gs) (h1 : g.2.length > 1) (h2 : g.1.length % g.2.length ≠ 0) :
    ∀ m : List (Nat × List Nat),
      gs.foldlM applyGroup m = Except.error ProtocolError.unevenSplit := by
  induction gs with
  | nil => simp at hg
  | cons g0 rest ih =>
    intro m
    rw [List.foldlM_cons]
    rcases List.mem_cons.mp hg with rfl | hg'
    · rw [applyGroup_error_of_uneven h1 h2]
      rfl
    · cases happ : applyGroup m g0 with
      | ok m1 =>
        show (Except.ok m1 >>= fun m' => rest.foldlM applyGroup m') = _
        rw [show (Except.ok m1 >>= fun m' => rest.foldlM applyGroup m') =
          rest.foldlM applyGroup m1 from rfl]
        exact ih hg' m1
      | error e =>
        rcases applyGroup_error_eq happ with ⟨rfl, _, _⟩
        rfl

theorem dedup_ok_of_good {gs : List (List Nat × List Nat)}
    (h : ∀ g ∈ gs, g.2.length > 1 → g.1.length % g.2.length = 0) :
    ∀ m : List (Nat × List Nat), ∃ m', gs.foldlM applyGroup m = Except.ok m' := by
  induction gs with
  | nil => intro m; exact ⟨m, rfl⟩
  | cons g0 rest ih =>
    intro m
    have hg0 : applyGroup m g0 ≠ Except.error ProtocolError.unevenSplit := by
      intro herr
      rcases applyGroup_error_eq herr with ⟨_, hlen, hmod⟩
      exact hmod (h g0 (by simp) hlen)
    cases happ : applyGroup m g0 with
    | ok m1 =>
      obtain ⟨m', hm'⟩ := ih (fun g hg => h g (List.mem_cons_of_mem _ hg)) m1
      refine ⟨m', ?_⟩
      rw [List.foldlM_cons, happ]
      exact hm'
    | error e =>
      rcases applyGroup_error_eq happ with ⟨rfl, _, _⟩
      exact absurd happ hg0

theorem dedup_ok_head {g0 : List Nat × List Nat} {rest : List (List Nat × List Nat)}
    {m m' : List (Nat × List Nat)}
    (h : (g0 :: rest).foldlM applyGroup m = Except.ok m') :
    ∃ m1, applyGroup m g0 = Except.ok m1 ∧ rest.foldlM applyGroup m1 = Except.ok m' := by
  rw [List.foldlM_cons] at h
  cases happ : applyGroup m g0 with
  | ok m1 =>
    rw [happ] at h
    exact ⟨m1, rfl, h⟩
  | error e =>
    rw [happ] at h
    cases h

theorem dedup_ok_split {gs₁ gs₂ : List (List Nat × List Nat)}
    {m m' : List (Nat × List Nat)}
    (h : (gs₁ ++ gs₂).foldlM applyGroup m = Except.ok m') :
    ∃ m₁, gs₁.foldlM applyGroup m = Except.ok m₁ ∧
      gs₂.foldlM applyGroup m₁ = Except.ok m' := by
  rw [List.foldlM_append] at h
  cases h1 : gs₁.foldlM applyGroup m with
  | ok m₁ =>
    rw [h1] at h
    exact ⟨m₁, rfl, h⟩
  | error e =>
    rw [h1] at h
    cases h

theorem dedup_lookup_preserved {gs : List (List Nat × List Nat)}
    {m m' : List (Nat × List Nat)} {s : Nat}
    (h : gs.foldlM applyGroup m = Except.ok m')
    (hs : ∀ g ∈ gs, s ∈ g.2 → ¬ g.2.length > 1) : alookup s m' = alookup s m := by
  induction gs generalizing m with
  | nil =>
    cases h
    rfl
  | cons g0 rest ih =>
    obtain ⟨m1, happ, hrest⟩ := dedup_ok_head h
    rw [ih hrest (fun g hg => hs g (List.mem_cons_of_mem _ hg)),
      applyGroup_lookup_preserved happ (hs g0 (by simp))]

/-! ## Characterization of the resolved map -/

theorem snd_eq_of_mem_nodup {pairs : List (Nat × List Nat)}
    (hnd : (pairs.map Prod.fst).Nodup) {s : Nat} {L L' : List Nat}
    (h1 : (s, L) ∈ pairs) (h2 : (s, L') ∈ pairs) : L = L' := by
  have e1 := mem_alookup hnd h1
  have e2 := mem_alookup hnd h2
  rw [e1] at e2
  exact (Option.some.injEq _ _ ▸ e2)

theorem groupOf_eq_of_mem {pairs : List (Nat × List Nat)}
    (hnd : (pairs.map Prod.fst).Nodup) {s : Nat} {L L' : List Nat}
    (h : (s, L) ∈ pairs) (h' : s ∈ groupOf L' pairs) : L' = L :=
  snd_eq_of_mem_nodup hnd ((mem_groupOf s L' pairs).mp h') h

theorem self_mem_groupOf {pairs : List (Nat × List Nat)} {s : Nat} {L : List Nat}
    (h : (s, L) ∈ pairs) : s ∈ groupOf L pairs :=
  (mem_groupOf s L pairs).mpr h

theorem sync_ok_lookup_single {pairs : List (Nat × List Nat)}
    (hnd : (pairs.map Prod.fst).Nodup) {s : Nat} {L : List Nat}
    (hmem : (s, L) ∈ pairs) (hsingle : ¬ (groupOf L pairs).length > 1)
    {m : List (Nat × List Nat)}
    (hok : sync_global_process_partition_lists pairs = Except.ok m) :
    alookup s m = some L := by
  simp only [sync_global_process_partition_lists] at hok
  have hs : ∀ g ∈ buildGroups pairs, s ∈ g.2 → ¬ g.2.length > 1 := by
    intro g hg hsg
    have hgrp : g.2 = groupOf g.1 pairs :=
      mem_buildGroups_groupOf (show (g.1, g.2) ∈ buildGroups pairs by simpa using hg)
    rw [hgrp] at hsg
    have : g.1 = L := groupOf_eq_of_mem hnd hmem hsg
    rw [hgrp, this]
    exact hsingle
  rw [dedup_lookup_preserved hok hs, buildPartitionLists_eq_self pairs hnd]
  exact mem_alookup hnd hmem

theorem sync_ok_lookup_chunk {pairs : List (Nat × List Nat)}
    (hnd : (pairs.map Prod.fst).Nodup) {L : List Nat} {ss : List Nat}
    (hgrp : alookup L (buildGroups pairs) = some ss) (hbig : ss.length > 1)
    {m : List (Nat × List Nat)}
    (hok : sync_global_process_partition_lists pairs = Except.ok m)
    (k : Nat) (hk : k < ss.length) :
    L.length % ss.length = 0 ∧
      alookup (ss.get ⟨k, hk⟩) m = some (chunk L (L.length / ss.length) k) := by
  simp only [sync_global_process_partition_lists] at hok
  have hssgrp : ss = groupOf L pairs :=
    mem_buildGroups_groupOf ((mem_buildGroups_iff pairs L ss).mpr hgrp)
  have hmem : (L, ss) ∈ buildGroups pairs := (mem_buildGroups_iff pairs L ss).mpr hgrp
  obtain ⟨gs₁, gs₂, hsplit⟩ := List.append_of_mem hmem
  rw [hsplit] at hok
  obtain ⟨m₁, _, hrest⟩ := dedup_ok_split hok
  obtain ⟨m₂, happ, htail⟩ := dedup_ok_head hrest
  have hdiv : L.length % ss.length = 0 := by
    by_contra hmod
    rw [applyGroup_error_of_uneven hbig hmod] at happ
    cases happ
  refine ⟨hdiv, ?_⟩
  have hLnotin : L ∉ gs₂.map Prod.fst := by
    have hkeys := buildGroups_keys_nodup pairs
    rw [hsplit] at hkeys
    simp only [List.map_append, List.map_cons] at hkeys
    have := hkeys.of_append_right
    exact (List.nodup_cons.mp this).1
  have hndss : ss.Nodup := hssgrp ▸ groupOf_nodup L pairs hnd
  have hs : ∀ g ∈ gs₂, (ss.get ⟨k, hk⟩) ∈ g.2 → ¬ g.2.length > 1 := by
    intro g hg hsg
    exfalso
    have hgBG : g ∈ buildGroups pairs := by
      rw [hsplit]
      exact List.mem_append.mpr (Or.inr (List.mem_cons_of_mem _ hg))
    have hgrp2 : g.2 = groupOf g.1 pairs :=
      mem_buildGroups_groupOf (show (g.1, g.2) ∈ buildGroups pairs by simpa using hgBG)
    have hsL : (ss.get ⟨k, hk⟩, L) ∈ pairs := by
      have : ss.get ⟨k, hk⟩ ∈ groupOf L pairs := hssgrp ▸ List.get_mem ss _ _
      exact (mem_groupOf _ L pairs).mp this
    have hg1L : g.1 = L := by
      rw [hgrp2] at hsg
      exact groupOf_eq_of_mem hnd hsL hsg
    exact hLnotin (hg1L ▸ List.mem_map_of_mem Prod.fst hg)
  rw [dedup_lookup_preserved htail hs]
  exact applyGroup_lookup_chunk happ hbig hndss k hk

theorem sync_ok_lookup_none {pairs : List (Nat × List Nat)}
    (hnd : (pairs.map Prod.fst).Nodup) {m : List (Nat × List Nat)}
    (hok : sync_global_process_partition_lists pairs = Except.ok m)
    {s : Nat} (hs : s ∉ pairs.map Prod.fst) : alookup s m = none := by
  simp only [sync_global_process_partition_lists] at hok
  have hcond : ∀ g ∈ buildGroups pairs, s ∈ g.2 → ¬ g.2.length > 1 := by
    intro g hg hsg
    exfalso
    have hgrp : g.2 = groupOf g.1 pairs :=
      mem_buildGroups_groupOf (show (g.1, g.2) ∈ buildGroups pairs by simpa using hg)
    rw [hgrp] at hsg
    exact hs (List.mem_map_of_mem Prod.fst ((mem_groupOf s g.1 pairs).mp hsg))
  rw [dedup_lookup_preserved hok hcond, buildPartitionLists_eq_self pairs hnd]
  exact (alookup_eq_none_iff s pairs).mpr hs

theorem sync_ok_lookup_subset {pairs : List (Nat × List Nat)}
    (hnd : (pairs.map Prod.fst).Nodup) {s : Nat} {L : List Nat}
    (hmem : (s, L) ∈ pairs) {m : List (Nat × List Nat)}
    (hok : sync_global_process_partition_lists pairs = Except.ok m)
    {v : List Nat} (hv : alookup s m = some v) : v ⊆ L := by
  by_cases hbig : (groupOf L pairs).length > 1
  · have hgrp : alookup L (buildGroups pairs) = some (groupOf L pairs) := by
      rw [alookup_buildGroups]
      have : groupOf L pairs ≠ [] := by
        intro hemp
        have := self_mem_groupOf hmem
        rw [hemp] at this
        simp at this
      rw [if_neg this]
    obtain ⟨⟨k, hk⟩, hget⟩ := List.mem_iff_get.mp (self_mem_groupOf hmem)
    have := (sync_ok_lookup_chunk hnd hgrp hbig hok k hk).2
    rw [hget, hv] at this
    have hveq : v = chunk L (L.length / (groupOf L pairs).length) k :=
      Option.some.injEq _ _ ▸ this
    rw [hveq]
    intro p hp
    exact List.drop_subset _ L (List.take_subset _ _ hp)
  · have := sync_ok_lookup_single hnd hmem hbig hok
    rw [hv] at this
    have hveq : v = L := Option.some_inj.mp this
    rw [hveq]
    exact List.Subset.refl L

/-! ## Chunk arithmetic: lengths, concatenation, membership, disjointness -/

theorem chunk_length {L : List Nat} {n k : Nat} (h : (k + 1) * n ≤ L.length) :
    (chunk L n k).length = n := by
  rw [Nat.succ_mul] at h
  simp only [chunk, List.length_take, List.length_drop]
  omega

theorem chunk_subset (L : List Nat) (n k : Nat) : chunk L n k ⊆ L :=
  fun _ hp => List.drop_subset _ L (List.take_subset _ _ hp)

theorem chunks_flatten (L : List Nat) (n : Nat) :
    ∀ g : Nat, g * n ≤ L.length →
      ((List.range g).map (chunk L n)).flatten = L.take (g * n) := by
  intro g
  induction g with
  | zero => simp
  | succ g ih =>
    intro h
    have hg : g * n ≤ L.length := le_trans (by nlinarith) h
    rw [List.range_succ, List.map_append, List.flatten_append, ih hg]
    simp only [List.map_cons, List.map_nil, List.flatten_cons, List.flatten_nil,
      List.append_nil, chunk]
    rw [← List.take_add]
    congr 1
    ring

theorem chunks_flatten_eq {L : List Nat} {n g : Nat} (h : g * n = L.length) :
    ((List.range g).map (chunk L n)).flatten = L := by
  rw [chunks_flatten L n g (le_of_eq h), h, List.take_length]

theorem mem_chunk_exists {L : List Nat} {n g : Nat} (h : g * n = L.length) {p : Nat}
    (hp : p ∈ L) : ∃ k, k < g ∧ p ∈ chunk L n k := by
  rw [← chunks_flatten_eq h] at hp
  rcases List.mem_flatten.mp hp with ⟨c, hc, hpc⟩
  rcases List.mem_map.mp hc with ⟨k, hk, rfl⟩
  exact ⟨k, List.mem_range.mp hk, hpc⟩

theorem chunk_disjoint_lt {L : List Nat} (hnd : L.Nodup) {n k₁ k₂ : Nat}
    (hlt : k₁ < k₂) {p : Nat} (h₁ : p ∈ chunk L n k₁) (h₂ : p ∈ chunk L n k₂) :
    False := by
  have hsub₁ : p ∈ L.take ((k₁ + 1) * n) := by
    have : L.take (k₁ * n + n) = L.take (k₁ * n) ++ (L.drop (k₁ * n)).take n :=
      List.take_add L (k₁ * n) n
    have hmem : p ∈ L.take (k₁ * n + n) := by
      rw [this]
      exact List.mem_append.mpr (Or.inr h₁)
    have harith : k₁ * n + n = (k₁ + 1) * n := by ring
    rwa [harith] at hmem
  have hsub₂ : p ∈ L.drop (k₂ * n) := List.take_subset _ _ h₂
  have hle : (k₁ + 1) * n ≤ k₂ * n := Nat.mul_le_mul_right n hlt
  exact List.disjoint_take_drop hnd hle hsub₁ hsub₂

theorem chunk_disjoint {L : List Nat} (hnd : L.Nodup) {n k₁ k₂ : Nat}
    (hne : k₁ ≠ k₂) {p : Nat} (h₁ : p ∈ chunk L n k₁) (h₂ : p ∈ chunk L n k₂) :
    False := by
  rcases Nat.lt_or_ge k₁ k₂ with hlt | hge
  · exact chunk_disjoint_lt hnd hlt h₁ h₂
  · exact chunk_disjoint_lt hnd (Nat.lt_of_le_of_ne hge (Ne.symm hne)) h₂ h₁

/-! ## The resolved map has no duplicate server keys -/

theorem ainsert_keys {α β : Type} [DecidableEq α] (k : α) (v : β) (m : List (α × β)) :
    (ainsert k v m).map Prod.fst =
      if k ∈ m.map Prod.fst then m.map Prod.fst else m.map Prod.fst ++ [k] := by
  induction m with
  | nil => simp [ainsert]
  | cons e rest ih =>
    obtain ⟨a, b⟩ := e
    by_cases h : a = k
    · simp [ainsert, h]
    · simp only [ainsert, if_neg h, List.map_cons, ih]
      by_cases h2 : k ∈ rest.map Prod.fst
      · simp [h2, Ne.symm h]
      · simp [h2, Ne.symm h]

theorem ainsert_keys_nodup {α β : Type} [DecidableEq α] (k : α) (v : β)
    {m : List (α × β)} (hnd : (m.map Prod.fst).Nodup) :
    ((ainsert k v m).map Prod.fst).Nodup := by
  rw [ainsert_keys]
  by_cases h : k ∈ m.map Prod.fst
  · simpa [h]
  · simp only [if_neg h]
    refine List.Nodup.append hnd (List.nodup_singleton k) ?_
    intro a ha hk
    simp only [List.mem_singleton] at hk
    exact h (hk ▸ ha)

theorem chunkFold_keys_nodup (L : List Nat) (n : Nat) (es : List (Nat × Nat)) :
    ∀ m : List (Nat × List Nat), (m.map Prod.fst).Nodup →
      ((es.foldl (fun m p => ainsert p.2 (chunk L n p.1) m) m).map Prod.fst).Nodup := by
  induction es with
  | nil => intro m h; simpa using h
  | cons e rest ih =>
    intro m h
    simp only [List.foldl_cons]
    exact ih _ (ainsert_keys_nodup e.2 _ h)

theorem applyGroup_keys_nodup {m : List (Nat × List Nat)} {g : List Nat × List Nat}
    {m' : List (Nat × List Nat)} (h : applyGroup m g = Except.ok m')
    (hnd : (m.map Prod.fst).Nodup) : (m'.map Prod.fst).Nodup := by
  rcases applyGroup_ok_cases h with ⟨_, rfl⟩ | ⟨_, _, rfl⟩
  · exact hnd
  · exact chunkFold_keys_nodup g.1 (g.1.length / g.2.length) g.2.enum m hnd

theorem dedup_keys_nodup {gs : List (List Nat × List Nat)}
    {m m' : List (Nat × List Nat)} (h : gs.foldlM applyGroup m = Except.ok m')
    (hnd : (m.map Prod.fst).Nodup) : (m'.map Prod.fst).Nodup := by
  induction gs generalizing m with
  | nil =>
    cases h
    exact hnd
  | cons g0 rest ih =>
    obtain ⟨m1, happ, hrest⟩ := dedup_ok_head h
    exact ih hrest (applyGroup_keys_nodup happ hnd)

theorem sync_ok_keys_nodup {pairs : List (Nat × List Nat)}
    (hnd : (pairs.map Prod.fst).Nodup) {m : List (Nat × List Nat)}
    (hok : sync_global_process_partition_lists pairs = Except.ok m) :
    (m.map Prod.fst).Nodup := by
  simp only [sync_global_process_partition_lists] at hok
  exact dedup_keys_nodup hok (by rw [buildPartitionLists_eq_self pairs hnd]; exact hnd)

/-! ## Characterization of `compute_partition_server_mapping`'s single pass -/

theorem alookup_insertPartitions (sIdx : Nat) (L : List Nat) :
    ∀ (m : List (Nat × Nat)) (p : Nat),
      alookup p (insertPartitions sIdx L m) =
        if p ∈ L then some sIdx else alookup p m := by
  induction L with
  | nil => intro m p; simp [insertPartitions]
  | cons x rest ih =>
    intro m p
    simp only [insertPartitions, List.foldl_cons]
    rw [show rest.foldl (fun m p => ainsert p sIdx m) (ainsert x sIdx m) =
      insertPartitions sIdx rest (ainsert x sIdx m) from rfl, ih]
    by_cases hr : p ∈ rest
    · simp [hr]
    · by_cases hx : p = x
      · subst hx
        simp [hr, alookup_ainsert_self]
      · simp [hr, hx, alookup_ainsert_ne _ _ _ _ (Ne.symm hx)]

theorem psmFold_skip (ppl : List (Nat × List Nat)) :
    ∀ (m0 : List (Nat × Nat)) (p : Nat), (∀ e ∈ ppl, p ∉ e.2) →
      alookup p (ppl.foldl (fun m e => insertPartitions e.1 e.2 m) m0) = alookup p m0 := by
  induction ppl with
  | nil => intro m0 p _; rfl
  | cons e rest ih =>
    intro m0 p hp
    simp only [List.foldl_cons]
    rw [ih _ p (fun e' he' => hp e' (List.mem_cons_of_mem _ he')),
      alookup_insertPartitions, if_neg (hp e (by simp))]

theorem psmFold_sound (ppl : List (Nat × List Nat)) :
    ∀ (m0 : List (Nat × Nat)) (p s : Nat),
      alookup p (ppl.foldl (fun m e => insertPartitions e.1 e.2 m) m0) = some s →
      (∃ L, (s, L) ∈ ppl ∧ p ∈ L) ∨ alookup p m0 = some s := by
  induction ppl with
  | nil => intro m0 p s h; exact Or.inr h
  | cons e rest ih =>
    intro m0 p s h
    simp only [List.foldl_cons] at h
    rcases ih _ p s h with ⟨L, hL, hpL⟩ | h'
    · exact Or.inl ⟨L, List.mem_cons_of_mem _ hL, hpL⟩
    · rw [alookup_insertPartitions] at h'
      by_cases hpe : p ∈ e.2
      · rw [if_pos hpe] at h'
        have hse : s = e.1 := (Option.some_inj.mp h').symm
        exact Or.inl ⟨e.2, by rw [hse]; simp, hpe⟩
      · rw [if_neg hpe] at h'
        exact Or.inr h'

theorem psmFold_all_same (ppl : List (Nat × List Nat)) :
    ∀ (m0 : List (Nat × Nat)) (p s : Nat),
      (∀ e ∈ ppl, p ∈ e.2 → e.1 = s) →
      ((∃ e ∈ ppl, p ∈ e.2) ∨ alookup p m0 = some s) →
      alookup p (ppl.foldl (fun m e => insertPartitions e.1 e.2 m) m0) = some s := by
  induction ppl with
  | nil =>
    intro m0 p s _ hdisj
    rcases hdisj with ⟨e, he, _⟩ | h
    · simp at he
    · exact h
  | cons e rest ih =>
    intro m0 p s hall hdisj
    simp only [List.foldl_cons]
    apply ih _ p s (fun e' he' => hall e' (List.mem_cons_of_mem _ he'))
    by_cases hpe : p ∈ e.2
    · right
      rw [alookup_insertPartitions, if_pos hpe, hall e (by simp) hpe]
    · rcases hdisj with ⟨e', he', hpe'⟩ | h
      · rcases List.mem_cons.mp he' with rfl | he''
        · exact absurd hpe' hpe
        · exact Or.inl ⟨e', he'', hpe'⟩
      · right
        rw [alookup_insertPartitions, if_neg hpe]
        exact h

theorem psmFold_isSome (ppl : List (Nat × List Nat)) :
    ∀ (m0 : List (Nat × Nat)) (p : Nat),
      ((∃ e ∈ ppl, p ∈ e.2) ∨ (alookup p m0).isSome) →
      (alookup p (ppl.foldl (fun m e => insertPartitions e.1 e.2 m) m0)).isSome := by
  induction ppl with
  | nil =>
    intro m0 p hdisj
    rcases hdisj with ⟨e, he, _⟩ | h
    · simp at he
    · exact h
  | cons e rest ih =>
    intro m0 p hdisj
    simp only [List.foldl_cons]
    apply ih _ p
    by_cases hpe : p ∈ e.2
    · right
      rw [alookup_insertPartitions, if_pos hpe]
      rfl
    · rcases hdisj with ⟨e', he', hpe'⟩ | h
      · rcases List.mem_cons.mp he' with rfl | he''
        · exact absurd hpe' hpe
        · exact Or.inl ⟨e', he'', hpe'⟩
      · right
        rw [alookup_insertPartitions, if_neg hpe]
        exact h

theorem compute_psm_ok (ppl : List (Nat × List Nat)) :
    compute_partition_server_mapping ppl =
      Except.ok (ppl.foldl (fun m e => insertPartitions e.1 e.2 m) []) := rfl

/-! ## Order-(in)dependence helpers -/

theorem exists_mem_of_mem_keys {pairs : List (Nat × List Nat)} {s : Nat}
    (h : s ∈ pairs.map Prod.fst) : ∃ L, (s, L) ∈ pairs := by
  rcases List.mem_map.mp h with ⟨e, he, rfl⟩
  exact ⟨e.2, by simpa using he⟩

theorem alookup_perm {α β : Type} [DecidableEq α] {l l' : List (α × β)}
    (hperm : l.Perm l') (hnd : (l.map Prod.fst).Nodup) (k : α) :
    alookup k l = alookup k l' := by
  have hnd' : (l'.map Prod.fst).Nodup := ((hperm.map Prod.fst).nodup_iff).mp hnd
  cases h : alookup k l with
  | some v =>
    exact (mem_alookup hnd' (hperm.mem_iff.mp (alookup_mem h))).symm
  | none =>
    have hk : k ∉ l.map Prod.fst := (alookup_eq_none_iff k l).mp h
    have hk' : k ∉ l'.map Prod.fst := fun hmem =>
      hk ((hperm.map Prod.fst).mem_iff.mpr hmem)
    exact ((alookup_eq_none_iff k l').mpr hk').symm

theorem one_lt_length_of_two_mem {l : List Nat} {s t : Nat} (hs : s ∈ l) (ht : t ∈ l)
    (hne : s ≠ t) : 1 < l.length := by
  match l with
  | [] => simp at hs
  | [x] =>
    simp only [List.mem_singleton] at hs ht
    exact absurd (hs.trans ht.symm) hne
  | x :: y :: rest => simp

theorem dedup_id_of_small {gs : List (List Nat × List Nat)}
    (h : ∀ g ∈ gs, ¬ g.2.length > 1) :
    ∀ m : List (Nat × List Nat), gs.foldlM applyGroup m = Except.ok m := by
  induction gs with
  | nil => intro m; rfl
  | cons g0 rest ih =>
    intro m
    rw [List.foldlM_cons, applyGroup_ok_of_small (h g0 (by simp))]
    exact ih (fun g hg => h g (List.mem_cons_of_mem _ hg)) m

theorem sync_eq_self_of_no_groups (pairs : List (Nat × List Nat))
    (hnd : (pairs.map Prod.fst).Nodup)
    (hsmall : ∀ L : List Nat, ¬ (groupOf L pairs).length > 1) :
    sync_global_process_partition_lists pairs = Except.ok pairs := by
  simp only [sync_global_process_partition_lists]
  rw [buildPartitionLists_eq_self pairs hnd]
  apply dedup_id_of_small
  intro g hg
  rw [mem_buildGroups_groupOf (show (g.1, g.2) ∈ buildGroups pairs by simpa using hg)]
  exact hsmall g.1

theorem groupOf_small_of_snd_nodup (pairs : List (Nat × List Nat))
    (hndl : (pairs.map Prod.snd).Nodup) (L : List Nat) :
    ¬ (groupOf L pairs).length > 1 := by
  intro hbig
  have hsub : ((pairs.filter (fun p => p.2 = L)).map Prod.snd).Sublist
      (pairs.map Prod.snd) := (List.filter_sublist pairs).map Prod.snd
  have hnd2 : ((pairs.filter (fun p => p.2 = L)).map Prod.snd).Nodup := hsub.nodup hndl
  have hall : ∀ x ∈ (pairs.filter (fun p => p.2 = L)).map Prod.snd, x = L := by
    intro x hx
    rcases List.mem_map.mp hx with ⟨p, hp, rfl⟩
    have := (List.mem_filter.mp hp).2
    simpa using this
  have hlen : ((pairs.filter (fun p => p.2 = L)).map Prod.snd).length =
      (groupOf L pairs).length := by
    simp [groupOf]
  have h1 : 1 < ((pairs.filter (fun p => p.2 = L)).map Prod.snd).length := by omega
  have h0 : 0 < ((pairs.filter (fun p => p.2 = L)).map Prod.snd).length := by omega
  have e0 := hall _ (List.get_mem ((pairs.filter (fun p => p.2 = L)).map Prod.snd) 0 h0)
  have e1 := hall _ (List.get_mem ((pairs.filter (fun p => p.2 = L)).map Prod.snd) 1 h1)
  have hfin : (⟨0, h0⟩ : Fin _) = (⟨1, h1⟩ : Fin _) :=
    (List.Nodup.get_inj_iff hnd2).mp (e0.trans e1.symm)
  simp at hfin

end GrinExecutor

namespace ReadGraphRegistry

/-! ## Registry trace lemmas -/

theorem get_graph_foldl_no_register {G : Type} (ops : List (RegOp G)) :
    ∀ r : Registry G, (∀ op ∈ ops, isRegisterGraph op = false) →
      get_graph (ops.foldl applyOp r) = get_graph r := by
  induction ops with
  | nil => intro r _; rfl
  | cons op rest ih =>
    intro r h
    simp only [List.foldl_cons]
    rw [ih _ (fun o ho => h o (List.mem_cons_of_mem _ ho))]
    cases op with
    | registerGraph g =>
      exact absurd (h (RegOp.registerGraph g) (List.mem_cons_self _ _))
        (by simp [isRegisterGraph])
    | replacePartitionLists m => rfl
    | replaceServerIndex i => rfl
    | replaceReadVersion v => rfl

theorem runOps_append_single {G : Type} (ops : List (RegOp G)) (op : RegOp G) :
    runOps (ops ++ [op]) = applyOp (runOps ops) op := by
  simp [runOps, List.foldl_append]

end ReadGraphRegistry

namespace GrinExecutor

/-! ## Claim theorems -/

/-- C1, counterexample: the code does NOT assign chunks in ascending
server-index order.  For the broadcast sequence `[(5,[10,20]),(3,[10,20])]`
the code gives server `3` the chunk `[20]`, while the spec's
sorted-ascending rule (`spec_sorted_split`) gives server `3` (the smallest
index, rank 0) the chunk `[10]`. -/
theorem split_not_sorted_counterexample :
    sync_global_process_partition_lists [(5, [10, 20]), (3, [10, 20])] =
      Except.ok [(5, [10]), (3, [20])] ∧
    spec_sorted_split [10, 20] [5, 3] = [(3, [10]), (5, [20])] ∧
    alookup 3 ([(5, [10]), (3, [20])] : List (Nat × List Nat)) = some [20] ∧
    alookup 3 ([(3, [10]), (5, [20])] : List (Nat × List Nat)) = some [10] ∧
    (some [20] : Option (List Nat)) ≠ some [10] :=
  ⟨rfl, rfl, rfl, rfl, by decide⟩

/-- C1 (amended): for every conflict group of more than one server sharing a
list `L` (even split, with the whole resolution succeeding), chunk `k` of the
shared list (contiguous, equal-size chunks of `L/g` in original list order) is
assigned to the `k`-th server index in the order the group members were
RECEIVED (the order their broadcast pairs arrived), not in ascending numeric
order; each member receives exactly `L/g` partitions and concatenating the
chunks in received order reproduces the original list. -/
theorem even_split_received_order (pairs : List (Nat × List Nat))
    (hnd : (pairs.map Prod.fst).Nodup) (L ss : List Nat)
    (hgrp : alookup L (buildGroups pairs) = some ss) (hbig : ss.length > 1)
    (m : List (Nat × List Nat))
    (hok : sync_global_process_partition_lists pairs = Except.ok m) :
    (∀ k (hk : k < ss.length),
        alookup (ss.get ⟨k, hk⟩) m = some (chunk L (L.length / ss.length) k) ∧
          (chunk L (L.length / ss.length) k).length = L.length / ss.length) ∧
      ((List.range ss.length).map (chunk L (L.length / ss.length))).flatten = L := by
  have h0 : 0 < ss.length := by omega
  have hdiv : L.length % ss.length = 0 := (sync_ok_lookup_chunk hnd hgrp hbig hok 0 h0).1
  have hmul : ss.length * (L.length / ss.length) = L.length :=
    Nat.mul_div_cancel' (Nat.dvd_of_mod_eq_zero hdiv)
  refine ⟨?_, chunks_flatten_eq hmul⟩
  intro k hk
  refine ⟨(sync_ok_lookup_chunk hnd hgrp hbig hok k hk).2, ?_⟩
  apply chunk_length
  calc (k + 1) * (L.length / ss.length)
      ≤ ss.length * (L.length / ss.length) := Nat.mul_le_mul_right _ hk
    _ = L.length := hmul

/-- C1 witness: the amended theorem applied to the two-server group
`[5, 3]` sharing `[10, 20]`. -/
theorem even_split_received_order_witness :
    (([(5, [10, 20]), (3, [10, 20])] : List (Nat × List Nat)).map Prod.fst).Nodup ∧
    alookup [10, 20] (buildGroups [(5, [10, 20]), (3, [10, 20])]) = some [5, 3] ∧
    ([5, 3] : List Nat).length > 1 ∧
    sync_global_process_partition_lists [(5, [10, 20]), (3, [10, 20])] =
      Except.ok [(5, [10]), (3, [20])] ∧
    ((List.range ([5, 3] : List Nat).length).map
        (chunk [10, 20] (([10, 20] : List Nat).length / ([5, 3] : List Nat).length))).flatten
      = [10, 20] :=
  ⟨by decide, rfl, by decide, rfl,
    (even_split_received_order [(5, [10, 20]), (3, [10, 20])] (by decide) [10, 20] [5, 3]
      rfl (by decide) [(5, [10]), (3, [20])] rfl).2⟩

/-- C3: partition conservation.  For every receive sequence with distinct
server indices that the resolution accepts, a partition id occurs in some list
of the resolved map exactly when it occurs in some broadcast input list. -/
theorem partition_conservation (pairs : List (Nat × List Nat))
    (hnd : (pairs.map Prod.fst).Nodup) (m : List (Nat × List Nat))
    (hok : sync_global_process_partition_lists pairs = Except.ok m) (p : Nat) :
    (∃ e ∈ m, p ∈ e.2) ↔ (∃ e ∈ pairs, p ∈ e.2) := by
  constructor
  · rintro ⟨⟨s, v⟩, hmem, hpv⟩
    have hl : alookup s m = some v := mem_alookup (sync_ok_keys_nodup hnd hok) hmem
    have hs : s ∈ pairs.map Prod.fst := by
      by_contra hns
      rw [sync_ok_lookup_none hnd hok hns] at hl
      cases hl
    obtain ⟨L, hL⟩ := exists_mem_of_mem_keys hs
    exact ⟨(s, L), hL, sync_ok_lookup_subset hnd hL hok hl hpv⟩
  · rintro ⟨⟨s, L⟩, hmem, hpL⟩
    by_cases hbig : (groupOf L pairs).length > 1
    · have hne : groupOf L pairs ≠ [] := by
        intro hemp
        have := self_mem_groupOf hmem
        rw [hemp] at this
        simp at this
      have hgrp : alookup L (buildGroups pairs) = some (groupOf L pairs) := by
        rw [alookup_buildGroups, if_neg hne]
      have hdiv : L.length % (groupOf L pairs).length = 0 :=
        (sync_ok_lookup_chunk hnd hgrp hbig hok 0 (by omega)).1
      have hmul : (groupOf L pairs).length *
          (L.length / (groupOf L pairs).length) = L.length :=
        Nat.mul_div_cancel' (Nat.dvd_of_mod_eq_zero hdiv)
      obtain ⟨k, hk, hpk⟩ := mem_chunk_exists hmul hpL
      have hlk := (sync_ok_lookup_chunk hnd hgrp hbig hok k hk).2
      exact ⟨_, alookup_mem hlk, hpk⟩
    · have := sync_ok_lookup_single hnd hmem hbig hok
      exact ⟨(s, L), alookup_mem this, hpL⟩

/-- C3 witness: conservation applied to the spec's split scenario for
partition id `2`. -/
theorem partition_conservation_witness :
    (([(0, [0, 1, 2, 3]), (1, [0, 1, 2, 3])] : List (Nat × List Nat)).map Prod.fst).Nodup ∧
    sync_global_process_partition_lists [(0, [0, 1, 2, 3]), (1, [0, 1, 2, 3])] =
      Except.ok [(0, [0, 1]), (1, [2, 3])] ∧
    ((∃ e ∈ ([(0, [0, 1]), (1, [2, 3])] : List (Nat × List Nat)), 2 ∈ e.2) ↔
      (∃ e ∈ ([(0, [0, 1, 2, 3]), (1, [0, 1, 2, 3])] : List (Nat × List Nat)), 2 ∈ e.2)) :=
  ⟨by decide, rfl,
    partition_conservation [(0, [0, 1, 2, 3]), (1, [0, 1, 2, 3])] (by decide)
      [(0, [0, 1]), (1, [2, 3])] rfl 2⟩

/-- C5: a conflict group of size `g > 1` whose shared list length is not
divisible by `g` makes the synchronization abort (the embedded
`assert_eq!` panic) and no map is produced. -/
theorem uneven_split_fatal (pairs : List (Nat × List Nat)) (L ss : List Nat)
    (hgrp : alookup L (buildGroups pairs) = some ss) (hbig : ss.length > 1)
    (hmod : L.length % ss.length ≠ 0) :
    sync_global_process_partition_lists pairs = Except.error ProtocolError.unevenSplit := by
  simp only [sync_global_process_partition_lists]
  exact dedup_error_of_mem ((mem_buildGroups_iff pairs L ss).mpr hgrp) hbig hmod _

/-- C5 witness: two servers sharing a length-3 list abort with the
uneven-split failure. -/
theorem uneven_split_fatal_witness :
    alookup [1, 2, 3] (buildGroups [(0, [1, 2, 3]), (1, [1, 2, 3])]) = some [0, 1] ∧
    ([0, 1] : List Nat).length > 1 ∧
    ([1, 2, 3] : List Nat).length % ([0, 1] : List Nat).length ≠ 0 ∧
    sync_global_process_partition_lists [(0, [1, 2, 3]), (1, [1, 2, 3])] =
      Except.error ProtocolError.unevenSplit :=
  ⟨rfl, by decide, by decide,
    uneven_split_fatal [(0, [1, 2, 3]), (1, [1, 2, 3])] [1, 2, 3] [0, 1] rfl
      (by decide) (by decide)⟩

/-- C2, counterexample: the resolution is NOT independent of the receive
order.  The same set of broadcast pairs received in two different orders
yields different `ProcessPartitionMap`s (server `3` gets `[20]` in one run and
`[10]` in the other) and different `PartitionServerMap`s (partition `10` is
owned by server `5` in one run and by server `3` in the other). -/
theorem resolution_order_dependent_counterexample :
    ([(3, [10, 20]), (5, [10, 20])] : List (Nat × List Nat)).Perm
      [(5, [10, 20]), (3, [10, 20])] ∧
    sync_global_process_partition_lists [(5, [10, 20]), (3, [10, 20])] =
      Except.ok [(5, [10]), (3, [20])] ∧
    sync_global_process_partition_lists [(3, [10, 20]), (5, [10, 20])] =
      Except.ok [(3, [10]), (5, [20])] ∧
    alookup 3 ([(5, [10]), (3, [20])] : List (Nat × List Nat)) ≠
      alookup 3 ([(3, [10]), (5, [20])] : List (Nat × List Nat)) ∧
    compute_partition_server_mapping [(5, [10]), (3, [20])] =
      Except.ok [(10, 5), (20, 3)] ∧
    compute_partition_server_mapping [(3, [10]), (5, [20])] =
      Except.ok [(10, 3), (20, 5)] ∧
    alookup 10 ([(10, 5), (20, 3)] : List (Nat × Nat)) ≠
      alookup 10 ([(10, 3), (20, 5)] : List (Nat × Nat)) :=
  ⟨by decide, rfl, rfl, by decide, rfl, rfl, by decide⟩

/-- C2 (amended): the resolution is a deterministic function of the received
SEQUENCE, but not of the received set; across receive orders both maps are
reproduced only when no two processes report identical lists and all reported
lists are pairwise disjoint (no conflict group and no overlap).  Under those
hypotheses every permutation of the broadcast set yields the same resolved
map (the input itself, lookup-wise) and the same inverse map. -/
theorem resolution_order_independent_of_disjoint
    (pairs pairs' : List (Nat × List Nat)) (hperm : pairs.Perm pairs')
    (hnd : (pairs.map Prod.fst).Nodup)
    (hndl : (pairs.map Prod.snd).Nodup)
    (hdisj : ∀ e ∈ pairs, ∀ e' ∈ pairs, e ≠ e' → ∀ p ∈ e.2, p ∉ e'.2) :
    ∃ psm psm',
      sync_global_process_partition_lists pairs = Except.ok pairs ∧
      sync_global_process_partition_lists pairs' = Except.ok pairs' ∧
      compute_partition_server_mapping pairs = Except.ok psm ∧
      compute_partition_server_mapping pairs' = Except.ok psm' ∧
      (∀ s, alookup s pairs = alookup s pairs') ∧
      (∀ p, alookup p psm = alookup p psm') := by
  have hnd' : (pairs'.map Prod.fst).Nodup := ((hperm.map Prod.fst).nodup_iff).mp hnd
  have hndl' : (pairs'.map Prod.snd).Nodup := ((hperm.map Prod.snd).nodup_iff).mp hndl
  refine ⟨_, _,
    sync_eq_self_of_no_groups pairs hnd (groupOf_small_of_snd_nodup pairs hndl),
    sync_eq_self_of_no_groups pairs' hnd' (groupOf_small_of_snd_nodup pairs' hndl'),
    compute_psm_ok pairs, compute_psm_ok pairs',
    alookup_perm hperm hnd, ?_⟩
  intro p
  by_cases hp : ∃ e ∈ pairs, p ∈ e.2
  · obtain ⟨e, he, hpe⟩ := hp
    have hall : ∀ e' ∈ pairs, p ∈ e'.2 → e'.1 = e.1 := by
      intro e' he' hpe'
      by_cases hee : e' = e
      · rw [hee]
      · exact absurd hpe' (hdisj e he e' he' (fun h => hee h.symm) p hpe)
    have hall' : ∀ e' ∈ pairs', p ∈ e'.2 → e'.1 = e.1 := fun e' he' hpe' =>
      hall e' (hperm.mem_iff.mpr he') hpe'
    rw [psmFold_all_same pairs [] p e.1 hall (Or.inl ⟨e, he, hpe⟩),
      psmFold_all_same pairs' [] p e.1 hall' (Or.inl ⟨e, hperm.mem_iff.mp he, hpe⟩)]
  · push_neg at hp
    rw [psmFold_skip pairs [] p hp,
      psmFold_skip pairs' [] p (fun e he => hp e (hperm.mem_iff.mpr he))]

/-- C2 witness: the amended determinism theorem applied to two receive orders
of disjoint lists `[1, 2]` and `[3]`. -/
theorem resolution_order_independent_witness :
    ([(0, [1, 2]), (1, [3])] : List (Nat × List Nat)).Perm [(1, [3]), (0, [1, 2])] ∧
    (([(0, [1, 2]), (1, [3])] : List (Nat × List Nat)).map Prod.fst).Nodup ∧
    (([(0, [1, 2]), (1, [3])] : List (Nat × List Nat)).map Prod.snd).Nodup ∧
    (∀ e ∈ ([(0, [1, 2]), (1, [3])] : List (Nat × List Nat)),
      ∀ e' ∈ ([(0, [1, 2]), (1, [3])] : List (Nat × List Nat)),
        e ≠ e' → ∀ p ∈ e.2, p ∉ e'.2) ∧
    (∃ psm psm',
      sync_global_process_partition_lists [(0, [1, 2]), (1, [3])] =
        Except.ok [(0, [1, 2]), (1, [3])] ∧
      sync_global_process_partition_lists [(1, [3]), (0, [1, 2])] =
        Except.ok [(1, [3]), (0, [1, 2])] ∧
      compute_partition_server_mapping [(0, [1, 2]), (1, [3])] = Except.ok psm ∧
      compute_partition_server_mapping [(1, [3]), (0, [1, 2])] = Except.ok psm' ∧
      (∀ s, alookup s ([(0, [1, 2]), (1, [3])] : List (Nat × List Nat)) =
        alookup s ([(1, [3]), (0, [1, 2])] : List (Nat × List Nat))) ∧
      (∀ p, alookup p psm = alookup p psm')) :=
  ⟨by decide, by decide, by decide, by decide,
    resolution_order_independent_of_disjoint [(0, [1, 2]), (1, [3])]
      [(1, [3]), (0, [1, 2])] (by decide) (by decide) (by decide) (by decide)⟩

/-- C4, counterexample: when two processes report overlapping but
non-identical lists, the resolved lists are NOT disjoint.  Servers `0` and `1`
report `[1, 2]` and `[1]`; no conflict group forms, the map is returned
unchanged, and both servers own partition `1`. -/
theorem overlap_not_disjoint_counterexample :
    sync_global_process_partition_lists [(0, [1, 2]), (1, [1])] =
      Except.ok [(0, [1, 2]), (1, [1])] ∧
    alookup 0 ([(0, [1, 2]), (1, [1])] : List (Nat × List Nat)) = some [1, 2] ∧
    alookup 1 ([(0, [1, 2]), (1, [1])] : List (Nat × List Nat)) = some [1] ∧
    (0 : Nat) ≠ 1 ∧ (1 : Nat) ∈ [1, 2] ∧ (1 : Nat) ∈ ([1] : List Nat) :=
  ⟨rfl, rfl, rfl, by decide, by decide, by decide⟩

/-- C4 (amended): disjointness of the resolved lists holds when the broadcast
lists are duplicate-free and pairwise either identical or disjoint (the
configuration the storage layer is supposed to produce); then two distinct
server indices in the resolved map share no partition id. -/
theorem disjointness_of_compatible_inputs (pairs : List (Nat × List Nat))
    (hnd : (pairs.map Prod.fst).Nodup)
    (hlnd : ∀ e ∈ pairs, e.2.Nodup)
    (hcompat : ∀ e ∈ pairs, ∀ e' ∈ pairs, e.2 = e'.2 ∨ ∀ p ∈ e.2, p ∉ e'.2)
    (m : List (Nat × List Nat))
    (hok : sync_global_process_partition_lists pairs = Except.ok m)
    (s t : Nat) (v w : List Nat) (hs : alookup s m = some v)
    (ht : alookup t m = some w) (hst : s ≠ t) (p : Nat) (hpv : p ∈ v) : p ∉ w := by
  intro hpw
  have hskey : s ∈ pairs.map Prod.fst := by
    by_contra hns
    rw [sync_ok_lookup_none hnd hok hns] at hs
    cases hs
  have htkey : t ∈ pairs.map Prod.fst := by
    by_contra hnt
    rw [sync_ok_lookup_none hnd hok hnt] at ht
    cases ht
  obtain ⟨Ls, hLs⟩ := exists_mem_of_mem_keys hskey
  obtain ⟨Lt, hLt⟩ := exists_mem_of_mem_keys htkey
  by_cases hLL : Ls = Lt
  · subst hLL
    have hsg : s ∈ groupOf Ls pairs := self_mem_groupOf hLs
    have htg : t ∈ groupOf Ls pairs := self_mem_groupOf hLt
    have hbig : (groupOf Ls pairs).length > 1 := one_lt_length_of_two_mem hsg htg hst
    have hne : groupOf Ls pairs ≠ [] := by
      intro h
      rw [h] at hsg
      simp at hsg
    have hgrp : alookup Ls (buildGroups pairs) = some (groupOf Ls pairs) := by
      rw [alookup_buildGroups, if_neg hne]
    obtain ⟨⟨k₁, hk₁⟩, hget₁⟩ := List.mem_iff_get.mp hsg
    obtain ⟨⟨k₂, hk₂⟩, hget₂⟩ := List.mem_iff_get.mp htg
    have h₁ := (sync_ok_lookup_chunk hnd hgrp hbig hok k₁ hk₁).2
    have h₂ := (sync_ok_lookup_chunk hnd hgrp hbig hok k₂ hk₂).2
    rw [hget₁, hs] at h₁
    rw [hget₂, ht] at h₂
    have hv : v = chunk Ls (Ls.length / (groupOf Ls pairs).length) k₁ :=
      Option.some_inj.mp h₁
    have hw : w = chunk Ls (Ls.length / (groupOf Ls pairs).length) k₂ :=
      Option.some_inj.mp h₂
    have hkne : k₁ ≠ k₂ := by
      intro hkk
      apply hst
      rw [← hget₁, ← hget₂]
      subst hkk
      rfl
    exact chunk_disjoint (hlnd (s, Ls) hLs) hkne (hv ▸ hpv) (hw ▸ hpw)
  · rcases hcompat (s, Ls) hLs (t, Lt) hLt with heq | hdis
    · exact hLL heq
    · exact hdis p (sync_ok_lookup_subset hnd hLs hok hs hpv)
        (sync_ok_lookup_subset hnd hLt hok ht hpw)

/-- C4 witness: the amended disjointness theorem applied to the spec's split
scenario, showing partition `0` owned by server `0` is not owned by server
`1`. -/
theorem disjointness_of_compatible_inputs_witness :
    (([(0, [0, 1, 2, 3]), (1, [0, 1, 2, 3])] : List (Nat × List Nat)).map Prod.fst).Nodup ∧
    (∀ e ∈ ([(0, [0, 1, 2, 3]), (1, [0, 1, 2, 3])] : List (Nat × List Nat)), e.2.Nodup) ∧
    sync_global_process_partition_lists [(0, [0, 1, 2, 3]), (1, [0, 1, 2, 3])] =
      Except.ok [(0, [0, 1]), (1, [2, 3])] ∧
    (0 : Nat) ∉ ([2, 3] : List Nat) :=
  ⟨by decide, by decide, rfl,
    disjointness_of_compatible_inputs [(0, [0, 1, 2, 3]), (1, [0, 1, 2, 3])]
      (by decide) (by decide) (by decide) [(0, [0, 1]), (1, [2, 3])] rfl
      0 1 [0, 1] [2, 3] rfl rfl (by decide) 0 (by decide)⟩

/-- C6, counterexample: `compute_partition_server_mapping` does NOT check for
duplicate ownership.  On a map where partition `1` appears under both server
`0` and server `1` it returns a map (the later insertion silently wins)
instead of failing. -/
theorem duplicate_ownership_unchecked_counterexample :
    compute_partition_server_mapping [(0, [1]), (1, [1])] = Except.ok [(1, 1)] ∧
    compute_partition_server_mapping [(0, [1]), (1, [1])] ≠
      Except.error ProtocolError.duplicateOwnership ∧
    ((0, [1]) : Nat × List Nat) ∈ ([(0, [1]), (1, [1])] : List (Nat × List Nat)) ∧
    ((1, [1]) : Nat × List Nat) ∈ ([(0, [1]), (1, [1])] : List (Nat × List Nat)) ∧
    (0 : Nat) ≠ 1 ∧ (1 : Nat) ∈ ([1] : List Nat) :=
  ⟨rfl, fun h => Except.noConfusion h, by decide, by decide, by decide, by decide⟩

/-- C6 (amended): building the inverse map never fails — the Rust body
unconditionally returns `Ok` and a partition listed under several servers is
silently overwritten by the server processed last; still, every binding of the
returned map traces back to some input entry. -/
theorem mapping_total_and_sound (ppl : List (Nat × List Nat)) :
    ∃ psm, compute_partition_server_mapping ppl = Except.ok psm ∧
      ∀ p s, alookup p psm = some s → ∃ L, (s, L) ∈ ppl ∧ p ∈ L := by
  refine ⟨_, compute_psm_ok ppl, ?_⟩
  intro p s h
  rcases psmFold_sound ppl [] p s h with h' | h'
  · exact h'
  · cases h'

/-- C6 witness: the amended theorem instantiated on the duplicated-ownership
input. -/
theorem mapping_total_and_sound_witness :
    ∃ psm, compute_partition_server_mapping [(0, [1]), (1, [1])] = Except.ok psm ∧
      ∀ p s, alookup p psm = some s →
        ∃ L, (s, L) ∈ ([(0, [1]), (1, [1])] : List (Nat × List Nat)) ∧ p ∈ L :=
  mapping_total_and_sound [(0, [1]), (1, [1])]

/-- C7, counterexample: the forward direction of inverse consistency fails on
a map with duplicated ownership: partition `1` is listed under server `0` in
the input, yet the inverse maps it to server `1`. -/
theorem inverse_forward_counterexample :
    compute_partition_server_mapping [(0, [1]), (1, [1])] = Except.ok [(1, 1)] ∧
    ((0, [1]) : Nat × List Nat) ∈ ([(0, [1]), (1, [1])] : List (Nat × List Nat)) ∧
    (1 : Nat) ∈ ([1] : List Nat) ∧
    alookup 1 ([(1, 1)] : List (Nat × Nat)) = some 1 ∧
    (some 1 : Option Nat) ≠ some 0 :=
  ⟨rfl, by decide, by decide, rfl, by decide⟩

/-- C7 (amended): when no partition id appears under two different entries of
the `ProcessPartitionMap` (the case the resolution is supposed to produce),
the computed `PartitionServerMap` is a two-sided inverse: every partition of
every server's list maps back to that server, and every binding of the
inverse comes from an input entry containing that partition. -/
theorem inverse_consistency_of_disjoint (ppl : List (Nat × List Nat))
    (hdisj : ∀ e ∈ ppl, ∀ e' ∈ ppl, e ≠ e' → ∀ p ∈ e.2, p ∉ e'.2)
    (psm : List (Nat × Nat))
    (hok : compute_partition_server_mapping ppl = Except.ok psm) :
    (∀ s L, (s, L) ∈ ppl → ∀ p ∈ L, alookup p psm = some s) ∧
      (∀ p s, alookup p psm = some s → ∃ L, (s, L) ∈ ppl ∧ p ∈ L) := by
  rw [compute_psm_ok] at hok
  obtain rfl : (ppl.foldl (fun m e => insertPartitions e.1 e.2 m) []) = psm := by
    injection hok
  constructor
  · intro s L hmem p hp
    apply psmFold_all_same ppl [] p s ?_ (Or.inl ⟨(s, L), hmem, hp⟩)
    intro e' he' hpe'
    by_cases hee : e' = (s, L)
    · rw [hee]
    · exact absurd hpe' (hdisj (s, L) hmem e' he' (fun h => hee h.symm) p hp)
  · intro p s h
    rcases psmFold_sound ppl [] p s h with h' | h'
    · exact h'
    · cases h'

/-- C7 witness: inverse consistency on the spec's example resolved map. -/
theorem inverse_consistency_witness :
    (∀ e ∈ ([(0, [0, 1]), (1, [2, 3])] : List (Nat × List Nat)),
      ∀ e' ∈ ([(0, [0, 1]), (1, [2, 3])] : List (Nat × List Nat)),
        e ≠ e' → ∀ p ∈ e.2, p ∉ e'.2) ∧
    ((∀ s L, (s, L) ∈ ([(0, [0, 1]), (1, [2, 3])] : List (Nat × List Nat)) →
        ∀ p ∈ L, alookup p ([(0, 0), (1, 0), (2, 1), (3, 1)] : List (Nat × Nat)) = some s) ∧
      (∀ p s, alookup p ([(0, 0), (1, 0), (2, 1), (3, 1)] : List (Nat × Nat)) = some s →
        ∃ L, (s, L) ∈ ([(0, [0, 1]), (1, [2, 3])] : List (Nat × List Nat)) ∧ p ∈ L)) :=
  ⟨by decide,
    inverse_consistency_of_disjoint [(0, [0, 1]), (1, [2, 3])] (by decide)
      [(0, 0), (1, 0), (2, 1), (3, 1)] rfl⟩

end GrinExecutor

namespace ReadGraphRegistry

/-- C8: a read of `GRAPH_PROXY` before any `register_graph` observes none
(the null pointer); after `register_graph g` completes, every later read with
no further registration observes exactly `g`. -/
theorem registry_visibility {G : Type} (ops₁ ops₂ : List (RegOp G)) (g : G)
    (h2 : ∀ op ∈ ops₂, isRegisterGraph op = false) :
    get_graph (runOps (ops₁ ++ RegOp.registerGraph g :: ops₂)) = some g ∧
      ∀ ops : List (RegOp G), (∀ op ∈ ops, isRegisterGraph op = false) →
        get_graph (runOps ops) = none := by
  constructor
  · have hsplit : runOps (ops₁ ++ RegOp.registerGraph g :: ops₂) =
        ops₂.foldl applyOp (applyOp (runOps ops₁) (RegOp.registerGraph g)) := by
      simp [runOps, List.foldl_append]
    rw [hsplit, get_graph_foldl_no_register ops₂ _ h2]
    rfl
  · intro ops hops
    show get_graph (ops.foldl applyOp (initRegistry G)) = none
    rw [get_graph_foldl_no_register ops _ hops]
    rfl

/-- C8 witness: registration of handle `7` between two unrelated writes is
observed by the subsequent read. -/
theorem registry_visibility_witness :
    (∀ op ∈ ([RegOp.replaceServerIndex 2] : List (RegOp Nat)),
      isRegisterGraph op = false) ∧
    get_graph (runOps (([RegOp.replaceReadVersion 1] : List (RegOp Nat)) ++
      RegOp.registerGraph 7 :: [RegOp.replaceServerIndex 2])) = some 7 :=
  ⟨by decide,
    (registry_visibility [RegOp.replaceReadVersion 1] [RegOp.replaceServerIndex 2] 7
      (by decide)).1⟩

/-- C9, counterexample: the read-version cell is NOT monotonically
increasing — `replace_read_version` is an unconditional store, so writing `5`
and then `3` makes the observed value decrease from `5` to `3`. -/
theorem read_version_decrease_counterexample :
    get_read_version (@runOps Unit [RegOp.replaceReadVersion 5]) = 5 ∧
    get_read_version
      (@runOps Unit [RegOp.replaceReadVersion 5, RegOp.replaceReadVersion 3]) = 3 ∧
    (3 : Nat) < 5 :=
  ⟨rfl, rfl, by decide⟩

/-- C9 (amended): the cell stores exactly the value passed to the last
`replace_read_version`; the observed value is non-decreasing only under the
caller's obligation to pass a value at least as large as the current one
(monotonicity is not enforced by the registry). -/
theorem read_version_nondecreasing_of_le {G : Type} (ops : List (RegOp G)) (v : Nat)
    (h : get_read_version (runOps ops) ≤ v) :
    get_read_version (runOps ops) ≤
      get_read_version (runOps (ops ++ [RegOp.replaceReadVersion v])) := by
  rw [runOps_append_single]
  exact h

/-- C9 witness: appending a store of `4` from the initial state does not
decrease the observation. -/
theorem read_version_nondecreasing_witness :
    get_read_version (@runOps Unit []) ≤ 4 ∧
    get_read_version (@runOps Unit []) ≤
      get_read_version (@runOps Unit ([] ++ [RegOp.replaceReadVersion 4])) :=
  ⟨by decide, read_version_nondecreasing_of_le [] 4 (by decide)⟩

/-- C10: before bootstrap publishes anything the non-handle cells read their
default values — server index `0`, read version `0`, empty partition map —
and these reads are identical to the reads after a legitimate publication of
server index `0`, read version `0` and an empty map, so a reader cannot
distinguish the two states. -/
theorem default_initialized_indistinguishable (G : Type) :
    get_server_index (initRegistry G) = 0 ∧
    get_read_version (initRegistry G) = 0 ∧
    get_process_partition_lists (initRegistry G) = [] ∧
    get_server_index (runOps ([RegOp.replaceServerIndex 0, RegOp.replaceReadVersion 0,
        RegOp.replacePartitionLists []] : List (RegOp G))) =
      get_server_index (initRegistry G) ∧
    get_read_version (runOps ([RegOp.replaceServerIndex 0, RegOp.replaceReadVersion 0,
        RegOp.replacePartitionLists []] : List (RegOp G))) =
      get_read_version (initRegistry G) ∧
    get_process_partition_lists (runOps ([RegOp.replaceServerIndex 0,
        RegOp.replaceReadVersion 0, RegOp.replacePartitionLists []] : List (RegOp G))) =
      get_process_partition_lists (initRegistry G) :=
  ⟨rfl, rfl, rfl, rfl, rfl, rfl⟩

end ReadGraphRegistry
